import Mathlib

set_option linter.unusedSectionVars false

/-!
Shallow embedding of the R1CS / folding / multilinear-polynomial core of the
Spartan2 repository (src/r1cs.rs, src/spartan/polynomial.rs, src/errors.rs).

The scalar field `G::Scalar` is embedded as an arbitrary commutative ring `F`
with decidable equality (every finite field is an instance).  Rust `Vec` is
embedded as `List`, indexing `v[i]` as `List.getD i 0` (all indexing in the
modelled code paths is in range, so the default is never observed by the
theorems proved below).

The rayon-parallel sparse matrix-vector kernel of `multiply_vec` is embedded by
the per-row-sum semantics the spec requires of it (section 5: the result must
be invariant to the worker count): each (row, col, val) entry adds
`val * z[col]` into accumulator slot `row`, in entry order.  Whenever the
chunked mutex-guarded kernel of the source completes, it computes exactly
these sums (entries are sorted by row, chunks flatten back in row order, and
the zero-operand skip and one-operand collapses are exact field-arithmetic
optimizations).  The kernel does NOT always complete, however: its chunk-size
arithmetic panics on small inputs — `thread_chunk_size = M.len() / (4·threads)`
is 0 for matrices with fewer than 4 entries, making `par_chunks(0)` assert,
and `remaining_rows -= row_chunk_size` underflows for small `num_rows` — so
this embedding is the intended semantics, exact on the kernel's non-panicking
domain; claim C6 records the resulting code bug, and claim C5's amended
statement uses only the length-check error path, which runs before the kernel.

Rust `assert!`/`assert_eq!` statements are modelled by an `Option` layer:
`none` is a panic, `some (Except.ok ())` / `some (Except.error e)` are the
ordinary returns.
-/

deriving instance DecidableEq for Except

namespace Spartan2

/-- Errors returned by the library (src/errors.rs); only the variants reachable
from the embedded code paths matter here, but the full enumeration is kept. -/
inductive SpartanError where
  | InvalidIndex
  | InvalidInputLength
  | InvalidWitnessLength
  | UnSat
  | DecompressionError
  | ProofVerifyError
  | InvalidNumSteps
  | InvalidIPA
  | InvalidSumcheckProof
  | InvalidInitialInputLength
  | InvalidStepOutputLength
  | InternalTranscriptError
  | InvalidMultisetProof
  | InvalidProductProof
  | IncorrectWitness
  | InternalError
deriving DecidableEq, Repr

/-- A commitment key; the concrete commitment engine lives outside src/. -/
abbrev CommitmentKey (F : Type) : Type := List F

/-- A commitment value. -/
abbrev Commitment (F : Type) : Type := F

variable {F : Type} [CommRing F] [DecidableEq F]

/-- Modelled from the spec: the commitment engine (`CE::commit`) is an external
collaborator whose implementation (provider/hyrax_pc.rs) is not under src/.
The spec requires only `commit(key, vector) -> Commitment` with commitments
homomorphic under addition and scalar multiplication, and a default commitment
acting as the identity.  We model the commitment group as `(F, +)` with
`commit` the key-weighted linear functional `Σ key[i] * v[i]` (a Pedersen-style
commitment written additively); the default commitment is `0`. -/
def commit (ck : CommitmentKey F) (v : List F) : Commitment F :=
  (List.zipWith (fun k x => k * x) ck v).sum

/-- A type that holds the shape of the R1CS matrices. -/
structure R1CSShape (F : Type) where
  num_cons : Nat
  num_vars : Nat
  num_io : Nat
  A : List (Nat × Nat × F)
  B : List (Nat × Nat × F)
  C : List (Nat × Nat × F)
deriving DecidableEq, Repr

/-- A type that holds a witness for a given R1CS instance. -/
structure R1CSWitness (F : Type) where
  W : List F
deriving DecidableEq, Repr

/-- A type that holds an R1CS instance. -/
structure R1CSInstance (F : Type) where
  comm_W : Commitment F
  X : List F
deriving DecidableEq, Repr

/-- A type that holds a witness for a given Relaxed R1CS instance. -/
structure RelaxedR1CSWitness (F : Type) where
  W : List F
  E : List F
deriving DecidableEq, Repr

/-- A type that holds a Relaxed R1CS instance. -/
structure RelaxedR1CSInstance (F : Type) where
  comm_W : Commitment F
  comm_E : Commitment F
  X : List F
  u : F
deriving DecidableEq, Repr

/-- Fuel-based helper for `next_power_of_two`; structural recursion on the fuel
keeps the definition kernel-reducible. -/
def npt_aux (fuel n : Nat) : Nat :=
  match fuel with
  | 0 => 1
  | f + 1 => if n ≤ 1 then 1 else 2 * npt_aux f ((n + 1) / 2)

/-- Rust `usize::next_power_of_two`: the least power of two that is ≥ n
(mapping 0 to 1).  The fuel `n` suffices since the argument at least halves
at every step. -/
def next_power_of_two (n : Nat) : Nat := npt_aux n n

/-- Column renumbering applied by `R1CSShape::pad` when the variable block
grows from `num_vars` to `m`: columns addressing the constant slot or the
public input (c ≥ num_vars) shift right by `m - num_vars`, witness columns
are untouched. -/
def pad_col (num_vars m c : Nat) : Nat :=
  if num_vars ≤ c then c + m - num_vars else c

namespace R1CSShape

/-- `R1CSShape::pad` (src/r1cs.rs): equalize `num_vars` and `num_cons` at
`m = next_power_of_two(max num_vars num_cons)`; if only `num_cons` must grow
the matrices are unchanged, otherwise every column ≥ `num_vars` is shifted. -/
def pad (S : R1CSShape F) : R1CSShape F :=
  let m := next_power_of_two (max S.num_vars S.num_cons)
  if S.num_vars = m ∧ S.num_cons = m then S
  else if S.num_vars = m then
    { num_cons := m, num_vars := m, num_io := S.num_io, A := S.A, B := S.B, C := S.C }
  else
    let apply_pad := fun (M : List (Nat × Nat × F)) =>
      M.map (fun e => (e.1, pad_col S.num_vars m e.2.1, e.2.2))
    { num_cons := m, num_vars := m, num_io := S.num_io,
      A := apply_pad S.A, B := apply_pad S.B, C := apply_pad S.C }

/-- The matrix-validity check of `R1CSShape::new`: an entry is in range when
`row < num_cons` and `col ≤ num_io + num_vars`. -/
def is_valid (num_cons num_vars num_io : Nat) (M : List (Nat × Nat × F)) :
    Except SpartanError Unit :=
  if M.all (fun e => decide (e.1 < num_cons) && decide (e.2.1 ≤ num_io + num_vars)) then
    Except.ok ()
  else
    Except.error SpartanError.InvalidIndex

/-- `R1CSShape::new`: validate every triple of every matrix, returning
`InvalidIndex` if any matrix violates the bounds, and otherwise the stored
shape, immediately padded. -/
def new (num_cons num_vars num_io : Nat) (A B C : List (Nat × Nat × F)) :
    Except SpartanError (R1CSShape F) :=
  match is_valid num_cons num_vars num_io A, is_valid num_cons num_vars num_io B,
        is_valid num_cons num_vars num_io C with
  | Except.ok _, Except.ok _, Except.ok _ =>
      Except.ok (R1CSShape.pad
        { num_cons := num_cons, num_vars := num_vars, num_io := num_io,
          A := A, B := B, C := C })
  | _, _, _ => Except.error SpartanError.InvalidIndex

end R1CSShape

/-- The sparse matrix-vector product of `R1CSShape::multiply_vec`: starting
from `num_rows` zeros, each entry `(row, col, val)` of `M` adds
`val * z[col]` into slot `row`, in entry order.  The source's chunked rayon
kernel computes exactly this whenever it completes, but panics on small
inputs (`par_chunks(0)` when `M.len() < 4·threads`; `remaining_rows`
underflow for small `num_rows`) — see the header note and claim C6; this
definition is the spec-intended, worker-count-invariant semantics. -/
def sparse_matrix_vec_product (M : List (Nat × Nat × F)) (num_rows : Nat)
    (z : List F) : List F :=
  M.foldl (fun acc e => acc.set e.1 (acc.getD e.1 0 + e.2.2 * z.getD e.2.1 0))
    (List.replicate num_rows 0)

namespace R1CSShape

/-- `R1CSShape::multiply_vec`: requires `z.len() == num_io + num_vars + 1`,
else `InvalidWitnessLength`; returns the three products `(Az, Bz, Cz)`. -/
def multiply_vec (S : R1CSShape F) (z : List F) :
    Except SpartanError (List F × List F × List F) :=
  if z.length ≠ S.num_io + S.num_vars + 1 then
    Except.error SpartanError.InvalidWitnessLength
  else
    Except.ok (sparse_matrix_vec_product S.A S.num_cons z,
               sparse_matrix_vec_product S.B S.num_cons z,
               sparse_matrix_vec_product S.C S.num_cons z)

/-- `R1CSShape::is_sat_relaxed`: `none` models the `assert_eq!` panics on
malformed lengths; otherwise checks `Az ∘ Bz = u·Cz + E` (as the Rust code
does, by counting violated rows) and that `comm_W`, `comm_E` open to `W`, `E`. -/
def is_sat_relaxed (S : R1CSShape F) (ck : CommitmentKey F)
    (U : RelaxedR1CSInstance F) (W : RelaxedR1CSWitness F) :
    Option (Except SpartanError Unit) :=
  if W.W.length = S.num_vars ∧ W.E.length = S.num_cons ∧ U.X.length = S.num_io then
    match S.multiply_vec (W.W ++ [U.u] ++ U.X) with
    | Except.error e => some (Except.error e)
    | Except.ok (Az, Bz, Cz) =>
      if Az.length = S.num_cons ∧ Bz.length = S.num_cons ∧ Cz.length = S.num_cons then
        if ((List.range S.num_cons).map (fun i =>
              if Az.getD i 0 * Bz.getD i 0 ≠ U.u * Cz.getD i 0 + W.E.getD i 0
              then (1 : Nat) else 0)).sum = 0
            ∧ U.comm_W = commit ck W.W ∧ U.comm_E = commit ck W.E then
          some (Except.ok ())
        else
          some (Except.error SpartanError.UnSat)
      else none
  else none

/-- `R1CSShape::is_sat`: `none` models the `assert_eq!` panics on malformed
lengths; otherwise checks `Az ∘ Bz = Cz` with `z = [W | 1 | X]` and that
`comm_W` opens to `W`. -/
def is_sat (S : R1CSShape F) (ck : CommitmentKey F)
    (U : R1CSInstance F) (W : R1CSWitness F) :
    Option (Except SpartanError Unit) :=
  if W.W.length = S.num_vars ∧ U.X.length = S.num_io then
    match S.multiply_vec (W.W ++ [1] ++ U.X) with
    | Except.error e => some (Except.error e)
    | Except.ok (Az, Bz, Cz) =>
      if Az.length = S.num_cons ∧ Bz.length = S.num_cons ∧ Cz.length = S.num_cons then
        if ((List.range S.num_cons).map (fun i =>
              if Az.getD i 0 * Bz.getD i 0 ≠ Cz.getD i 0
              then (1 : Nat) else 0)).sum = 0
            ∧ U.comm_W = commit ck W.W then
          some (Except.ok ())
        else
          some (Except.error SpartanError.UnSat)
      else none
  else none

/-- `R1CSShape::commit_T`: computes the cross term
`T[i] = Az1[i]·Bz2[i] + Az2[i]·Bz1[i] − u1·Cz2[i] − Cz1[i]` together with its
commitment, propagating any `multiply_vec` error. -/
def commit_T (S : R1CSShape F) (ck : CommitmentKey F)
    (U1 : RelaxedR1CSInstance F) (W1 : RelaxedR1CSWitness F)
    (U2 : R1CSInstance F) (W2 : R1CSWitness F) :
    Except SpartanError (List F × Commitment F) :=
  match S.multiply_vec (W1.W ++ [U1.u] ++ U1.X) with
  | Except.error e => Except.error e
  | Except.ok (AZ_1, BZ_1, CZ_1) =>
    match S.multiply_vec (W2.W ++ [1] ++ U2.X) with
    | Except.error e => Except.error e
    | Except.ok (AZ_2, BZ_2, CZ_2) =>
      let AZ_1_circ_BZ_2 := (List.range AZ_1.length).map
        (fun i => AZ_1.getD i 0 * BZ_2.getD i 0)
      let AZ_2_circ_BZ_1 := (List.range AZ_2.length).map
        (fun i => AZ_2.getD i 0 * BZ_1.getD i 0)
      let u_1_cdot_CZ_2 := (List.range CZ_2.length).map
        (fun i => U1.u * CZ_2.getD i 0)
      let u_2_cdot_CZ_1 := (List.range CZ_1.length).map
        (fun i => CZ_1.getD i 0)
      let T := List.zipWith (fun x d => x - d)
        (List.zipWith (fun x c => x - c)
          (List.zipWith (fun a b => a + b) AZ_1_circ_BZ_2 AZ_2_circ_BZ_1)
          u_1_cdot_CZ_2)
        u_2_cdot_CZ_1
      Except.ok (T, commit ck T)

end R1CSShape

namespace RelaxedR1CSWitness

/-- `RelaxedR1CSWitness::from_r1cs_witness`: lift with `E = 0`. -/
def from_r1cs_witness (S : R1CSShape F) (witness : R1CSWitness F) :
    RelaxedR1CSWitness F :=
  { W := witness.W, E := List.replicate S.num_cons 0 }

/-- `RelaxedR1CSWitness::fold`: checks only that the two `W` vectors have
equal length; `W = W1 + r·W2` and `E = E1 + r·T` element-wise (the `zip`
truncates to the shorter operand, exactly as rayon `zip` does). -/
def fold (self : RelaxedR1CSWitness F) (W2 : R1CSWitness F) (T : List F)
    (r : F) : Except SpartanError (RelaxedR1CSWitness F) :=
  if self.W.length ≠ W2.W.length then
    Except.error SpartanError.InvalidWitnessLength
  else
    Except.ok
      { W := List.zipWith (fun a b => a + r * b) self.W W2.W,
        E := List.zipWith (fun a b => a + r * b) self.E T }

end RelaxedR1CSWitness

namespace RelaxedR1CSInstance

/-- `RelaxedR1CSInstance::default`: default commitments, `u = 0`, zero `X`. -/
def default (_ck : CommitmentKey F) (S : R1CSShape F) : RelaxedR1CSInstance F :=
  { comm_W := 0, comm_E := 0, X := List.replicate S.num_io 0, u := 0 }

/-- `RelaxedR1CSInstance::from_r1cs_instance`: start from the default and
override `comm_W`, `u = 1`, `X`. -/
def from_r1cs_instance (ck : CommitmentKey F) (S : R1CSShape F)
    (inst : R1CSInstance F) : RelaxedR1CSInstance F :=
  { RelaxedR1CSInstance.default ck S with
      comm_W := inst.comm_W, u := 1, X := inst.X }

/-- `RelaxedR1CSInstance::fold`: weighted sums of `X`, `comm_W`, `comm_E`, `u`. -/
def fold (self : RelaxedR1CSInstance F) (U2 : R1CSInstance F)
    (comm_T : Commitment F) (r : F) :
    Except SpartanError (RelaxedR1CSInstance F) :=
  Except.ok
    { comm_W := self.comm_W + U2.comm_W * r,
      comm_E := self.comm_E + comm_T * r,
      X := List.zipWith (fun a b => a + r * b) self.X U2.X,
      u := self.u + r }

end RelaxedR1CSInstance

/-- The multilinear equality polynomial, given by its coordinate vector `r`
(src/spartan/polynomial.rs). -/
structure EqPolynomial (F : Type) where
  r : List F

namespace EqPolynomial

/-- `EqPolynomial::evaluate`: `∏ᵢ (rxᵢ·rᵢ + (1−rxᵢ)·(1−rᵢ))`, accumulated by a
left fold starting from `1`.  The Rust `assert_eq!(self.r.len(), rx.len())` is
reflected by the length hypotheses of the theorems below. -/
def evaluate (p : EqPolynomial F) (rx : List F) : F :=
  (List.zipWith (fun x ri => x * ri + (1 - x) * (1 - ri)) rx p.r).foldl
    (fun acc item => acc * item) 1

/-- `EqPolynomial::evals`: the length-`2^ℓ` hypercube table built by iterative
doubling.  The source works inside a fixed `2^ℓ` zero-initialized buffer whose
active prefix doubles once per coordinate of `r`, processed from last to
first; one step turns each active entry `x` into the pair
`(x − x·r, x·r)` (left half, right half).  The inactive zero suffix never
contributes and is dropped in this functional rendering, whose final active
prefix is the whole buffer. -/
def evals (p : EqPolynomial F) : List F :=
  p.r.foldr
    (fun r acc => acc.map (fun x => x - x * r) ++ acc.map (fun x => x * r))
    [1]

end EqPolynomial

/-- Dense multilinear polynomial (src/spartan/polynomial.rs). -/
structure MultilinearPolynomial (F : Type) where
  num_vars : Nat
  Z : List F

namespace MultilinearPolynomial

/-- `MultilinearPolynomial::bound_poly_var_top`: one sum-check binding round.
`split_at_mut(n)` with `n = len/2` yields the two halves; each left entry
becomes `a + r·(b − a)`, the buffer is truncated to `n` and the variable count
decremented.  The in-place mutation is rendered as a returned value. -/
def bound_poly_var_top (p : MultilinearPolynomial F) (r : F) :
    MultilinearPolynomial F :=
  let n := p.Z.length / 2
  { num_vars := p.num_vars - 1,
    Z := List.zipWith (fun a b => a + r * (b - a)) (p.Z.take n)
      ((p.Z.drop n).take n) }

/-- `MultilinearPolynomial::evaluate`: the dot product of the equality table
of `r` with `Z`.  The Rust asserts `r.len() == num_vars` and
`chis.len() == Z.len()` are reflected by the hypotheses of the theorems
below. -/
def evaluate (p : MultilinearPolynomial F) (r : List F) : F :=
  (List.zipWith (fun a b => a * b) (EqPolynomial.evals { r := r }) p.Z).sum

end MultilinearPolynomial

/-- The boolean hypercube point of index `i` over `ℓ` coordinates, as a vector
of field elements, most significant bit first (so coordinate 0 is matched
against `r[0]`). -/
def index_to_bits (ℓ i : Nat) : List F :=
  (List.range ℓ).map (fun j => if i / 2 ^ (ℓ - 1 - j) % 2 = 1 then 1 else 0)

/-! ### Helper lemmas: next_power_of_two -/

theorem npt_aux_of_le_one (f n : Nat) (h : n ≤ 1) : npt_aux f n = 1 := by
  cases f <;> simp [npt_aux, h]

theorem npt_aux_succ (f n : Nat) (h : 2 ≤ n) :
    npt_aux (f + 1) n = 2 * npt_aux f ((n + 1) / 2) := by
  simp only [npt_aux]
  rw [if_neg (by omega)]

theorem npt_aux_congr (n : Nat) :
    ∀ f f', n ≤ f → n ≤ f' → npt_aux f n = npt_aux f' n := by
  induction n using Nat.strong_induction_on with
  | _ n ih =>
    intro f f' hf hf'
    by_cases h1 : n ≤ 1
    · rw [npt_aux_of_le_one f n h1, npt_aux_of_le_one f' n h1]
    · have h2 : 2 ≤ n := by omega
      cases f with
      | zero => exact absurd hf (by omega)
      | succ fa =>
        cases f' with
        | zero => exact absurd hf' (by omega)
        | succ fb =>
          rw [npt_aux_succ fa n h2, npt_aux_succ fb n h2]
          have hlt : (n + 1) / 2 < n := by omega
          rw [ih ((n + 1) / 2) hlt fa fb (by omega) (by omega)]

theorem le_npt_aux (n : Nat) : ∀ f, n ≤ f → n ≤ npt_aux f n := by
  induction n using Nat.strong_induction_on with
  | _ n ih =>
    intro f hf
    by_cases h1 : n ≤ 1
    · rw [npt_aux_of_le_one f n h1]; omega
    · have h2 : 2 ≤ n := by omega
      cases f with
      | zero => exact absurd hf (by omega)
      | succ fa =>
        rw [npt_aux_succ fa n h2]
        have hlt : (n + 1) / 2 < n := by omega
        have hrec := ih ((n + 1) / 2) hlt fa (by omega)
        omega

theorem le_next_power_of_two (n : Nat) : n ≤ next_power_of_two n :=
  le_npt_aux n n (Nat.le_refl n)

theorem npt_aux_is_pow (f n : Nat) : ∃ k, npt_aux f n = 2 ^ k := by
  induction f generalizing n with
  | zero => exact ⟨0, rfl⟩
  | succ f ih =>
    by_cases h1 : n ≤ 1
    · exact ⟨0, by rw [npt_aux_of_le_one (f + 1) n h1, pow_zero]⟩
    · obtain ⟨k, hk⟩ := ih ((n + 1) / 2)
      exact ⟨k + 1, by rw [npt_aux_succ f n (by omega), hk, pow_succ]; ring⟩

theorem next_power_of_two_is_pow (n : Nat) : ∃ k, next_power_of_two n = 2 ^ k :=
  npt_aux_is_pow n n

theorem next_power_of_two_two_pow (k : Nat) :
    next_power_of_two (2 ^ k) = 2 ^ k := by
  induction k with
  | zero => rfl
  | succ k ih =>
    have hpos : 0 < 2 ^ k := Nat.pos_pow_of_pos k (by omega)
    have h2 : 2 ≤ 2 ^ (k + 1) := by
      have : 2 ^ (k + 1) = 2 * 2 ^ k := by rw [pow_succ]; ring
      omega
    have hg : 2 ^ (k + 1) = 2 ^ (k + 1) - 1 + 1 := by omega
    have hhalf : (2 ^ (k + 1) + 1) / 2 = 2 ^ k := by
      have : 2 ^ (k + 1) = 2 * 2 ^ k := by rw [pow_succ]; ring
      omega
    calc next_power_of_two (2 ^ (k + 1))
        = npt_aux (2 ^ (k + 1) - 1 + 1) (2 ^ (k + 1)) := by
          rw [next_power_of_two]
          rw [← hg]
      _ = 2 * npt_aux (2 ^ (k + 1) - 1) ((2 ^ (k + 1) + 1) / 2) :=
          npt_aux_succ _ _ h2
      _ = 2 * npt_aux (2 ^ (k + 1) - 1) (2 ^ k) := by rw [hhalf]
      _ = 2 * npt_aux (2 ^ k) (2 ^ k) := by
          rw [npt_aux_congr (2 ^ k) (2 ^ (k + 1) - 1) (2 ^ k) (by omega)
            (Nat.le_refl _)]
      _ = 2 * 2 ^ k := by rw [show npt_aux (2 ^ k) (2 ^ k) = 2 ^ k from ih]
      _ = 2 ^ (k + 1) := by rw [pow_succ]; ring

theorem next_power_of_two_of_pow (m : Nat) (h : ∃ k, m = 2 ^ k) :
    next_power_of_two m = m := by
  obtain ⟨k, rfl⟩ := h
  exact next_power_of_two_two_pow k

/-! ### Helper lemmas: sparse matrix-vector product -/

theorem foldl_set_length (M : List (Nat × Nat × F)) (z : List F) :
    ∀ acc : List F,
      (M.foldl (fun acc e => acc.set e.1 (acc.getD e.1 0 + e.2.2 * z.getD e.2.1 0))
        acc).length = acc.length := by
  induction M with
  | nil => intro acc; rfl
  | cons e M ih =>
    intro acc
    rw [List.foldl_cons, ih, List.length_set]

theorem length_sparse_matrix_vec_product (M : List (Nat × Nat × F)) (n : Nat)
    (z : List F) : (sparse_matrix_vec_product M n z).length = n := by
  rw [sparse_matrix_vec_product, foldl_set_length, List.length_replicate]

theorem getD_of_length_le (l : List F) (i : Nat) (h : l.length ≤ i) :
    l.getD i 0 = 0 :=
  List.getD_eq_default l 0 h

theorem getD_sparse_matrix_vec_product (M : List (Nat × Nat × F)) (n : Nat)
    (z : List F) (i : Nat) (hi : i < n) :
    (sparse_matrix_vec_product M n z).getD i 0
      = ((M.filter (fun e => e.1 == i)).map
          (fun e => e.2.2 * z.getD e.2.1 0)).sum := by
  induction M using List.reverseRecOn with
  | nil =>
    rw [sparse_matrix_vec_product, List.foldl_nil, List.getD_eq_getElem?_getD]
    simp [List.getElem?_replicate, hi]
  | append_singleton M e ih =>
    have hstep : sparse_matrix_vec_product (M ++ [e]) n z
        = (sparse_matrix_vec_product M n z).set e.1
            ((sparse_matrix_vec_product M n z).getD e.1 0
              + e.2.2 * z.getD e.2.1 0) := by
      rw [sparse_matrix_vec_product, List.foldl_append, List.foldl_cons,
        List.foldl_nil, sparse_matrix_vec_product]
    by_cases he : e.1 = i
    · have hlen : i < (sparse_matrix_vec_product M n z).length := by
        rw [length_sparse_matrix_vec_product]; exact hi
      rw [hstep, he, List.getD_eq_getElem?_getD, List.getElem?_set_self hlen]
      simp only [Option.getD_some]
      rw [ih]
      have hfil : (M ++ [e]).filter (fun e => e.1 == i)
          = M.filter (fun e => e.1 == i) ++ [e] := by
        rw [List.filter_append]
        simp [List.filter_cons, he]
      rw [hfil, List.map_append, List.sum_append]
      simp
    · rw [hstep, List.getD_eq_getElem?_getD, List.getElem?_set_ne he,
        ← List.getD_eq_getElem?_getD, ih]
      have hfil : (M ++ [e]).filter (fun e => e.1 == i)
          = M.filter (fun e => e.1 == i) := by
        rw [List.filter_append]
        simp [List.filter_cons, he]
      rw [hfil]

theorem getD_sparse_matrix_vec_product_of_le (M : List (Nat × Nat × F))
    (n : Nat) (z : List F) (i : Nat) (hi : n ≤ i) :
    (sparse_matrix_vec_product M n z).getD i 0 = 0 := by
  apply getD_of_length_le
  rw [length_sparse_matrix_vec_product]
  exact hi

theorem getD_zipWith_of_zero (f : F → F → F) (h0 : f 0 0 = 0) :
    ∀ (z1 z2 : List F), z1.length = z2.length → ∀ c : Nat,
      (List.zipWith f z1 z2).getD c 0 = f (z1.getD c 0) (z2.getD c 0) := by
  intro z1
  induction z1 with
  | nil =>
    intro z2 h c
    cases z2 with
    | nil => simp [h0]
    | cons b bs => simp at h
  | cons a as ih =>
    intro z2 h c
    cases z2 with
    | nil => simp at h
    | cons b bs =>
      cases c with
      | zero => simp
      | succ c' =>
        simp only [List.zipWith_cons_cons, List.getD_cons_succ]
        exact ih bs (by simpa using h) c'

theorem rowsum_linear (L : List (Nat × Nat × F)) (z1 z2 : List F) (r : F)
    (h : z1.length = z2.length) :
    (L.map (fun e =>
        e.2.2 * (List.zipWith (fun a b => a + r * b) z1 z2).getD e.2.1 0)).sum
      = (L.map (fun e => e.2.2 * z1.getD e.2.1 0)).sum
        + r * (L.map (fun e => e.2.2 * z2.getD e.2.1 0)).sum := by
  induction L with
  | nil => simp
  | cons e L ih =>
    simp only [List.map_cons, List.sum_cons]
    rw [ih, getD_zipWith_of_zero (fun a b => a + r * b) (by ring) z1 z2 h]
    ring

theorem getD_sparse_matrix_vec_product_linear (M : List (Nat × Nat × F))
    (n : Nat) (z1 z2 : List F) (r : F) (h : z1.length = z2.length) (i : Nat) :
    (sparse_matrix_vec_product M n
        (List.zipWith (fun a b => a + r * b) z1 z2)).getD i 0
      = (sparse_matrix_vec_product M n z1).getD i 0
        + r * (sparse_matrix_vec_product M n z2).getD i 0 := by
  rcases lt_or_ge i n with hi | hi
  · rw [getD_sparse_matrix_vec_product M n _ i hi,
      getD_sparse_matrix_vec_product M n z1 i hi,
      getD_sparse_matrix_vec_product M n z2 i hi]
    exact rowsum_linear _ z1 z2 r h
  · rw [getD_sparse_matrix_vec_product_of_le M n _ i hi,
      getD_sparse_matrix_vec_product_of_le M n z1 i hi,
      getD_sparse_matrix_vec_product_of_le M n z2 i hi]
    ring

theorem getD_range_map (f : Nat → F) (n i : Nat) (hi : i < n) :
    ((List.range n).map f).getD i 0 = f i := by
  rw [List.getD_eq_getElem?_getD, List.getElem?_map]
  simp [List.getElem?_range, hi]

/-! ### Helper lemmas: the modelled commitment -/

theorem commit_linear (ck : CommitmentKey F) (r : F) :
    ∀ (v w : List F), v.length = w.length →
      commit ck (List.zipWith (fun a b => a + r * b) v w)
        = commit ck v + r * commit ck w := by
  induction ck with
  | nil => intro v w _; simp [commit]
  | cons k ck ih =>
    intro v w h
    cases v with
    | nil =>
      cases w with
      | nil => simp [commit]
      | cons b bs => simp at h
    | cons a as =>
      cases w with
      | nil => simp at h
      | cons b bs =>
        simp only [commit, List.zipWith_cons_cons, List.sum_cons] at *
        rw [ih as bs (by simpa using h)]
        ring

theorem commit_replicate_zero (ck : CommitmentKey F) :
    ∀ n : Nat, commit ck (List.replicate n 0) = 0 := by
  induction ck with
  | nil => intro n; simp [commit]
  | cons k ck ih =>
    intro n
    cases n with
    | zero => simp [commit]
    | succ m =>
      simp only [List.replicate_succ, commit, List.zipWith_cons_cons,
        List.sum_cons] at *
      rw [ih m]
      ring

/-! ### Helper lemmas: the violation counter used by is_sat / is_sat_relaxed -/

theorem indicator_sum_eq_zero_iff (n : Nat) (p : Nat → Prop) [DecidablePred p] :
    ((List.range n).map (fun i => if p i then (1 : Nat) else 0)).sum = 0
      ↔ ∀ i < n, ¬ p i := by
  induction n with
  | zero => simp
  | succ n ih =>
    rw [List.range_succ n, List.map_append, List.sum_append]
    constructor
    · intro h
      have h1 : ((List.range n).map (fun i => if p i then (1 : Nat) else 0)).sum = 0 := by
        omega
      have h2 : (if p n then (1 : Nat) else 0) = 0 := by
        simp only [List.map_cons, List.map_nil, List.sum_cons, List.sum_nil] at h
        omega
      intro i hi
      rcases lt_or_ge i n with hlt | hge
      · exact (ih.mp h1) i hlt
      · have : i = n := by omega
        subst this
        intro hp
        rw [if_pos hp] at h2
        omega
    · intro h
      have h1 : ((List.range n).map (fun i => if p i then (1 : Nat) else 0)).sum = 0 :=
        ih.mpr (fun i hi => h i (by omega))
      have h2 : (if p n then (1 : Nat) else 0) = 0 := by
        rw [if_neg (h n (by omega))]
      simp [h1, h2]

/-! ### Characterizations of multiply_vec, is_sat, is_sat_relaxed -/

theorem multiply_vec_eq_ok (S : R1CSShape F) (z : List F)
    (h : z.length = S.num_io + S.num_vars + 1) :
    S.multiply_vec z = Except.ok
      (sparse_matrix_vec_product S.A S.num_cons z,
       sparse_matrix_vec_product S.B S.num_cons z,
       sparse_matrix_vec_product S.C S.num_cons z) := by
  rw [R1CSShape.multiply_vec, if_neg (by omega)]

theorem is_sat_relaxed_eq (S : R1CSShape F) (ck : CommitmentKey F)
    (U : RelaxedR1CSInstance F) (W : RelaxedR1CSWitness F)
    (h1 : W.W.length = S.num_vars) (h2 : W.E.length = S.num_cons)
    (h3 : U.X.length = S.num_io) :
    S.is_sat_relaxed ck U W =
      if (∀ i < S.num_cons,
            (sparse_matrix_vec_product S.A S.num_cons (W.W ++ [U.u] ++ U.X)).getD i 0
              * (sparse_matrix_vec_product S.B S.num_cons (W.W ++ [U.u] ++ U.X)).getD i 0
              = U.u * (sparse_matrix_vec_product S.C S.num_cons
                  (W.W ++ [U.u] ++ U.X)).getD i 0 + W.E.getD i 0)
          ∧ U.comm_W = commit ck W.W ∧ U.comm_E = commit ck W.E then
        some (Except.ok ())
      else some (Except.error SpartanError.UnSat) := by
  have hz : (W.W ++ [U.u] ++ U.X).length = S.num_io + S.num_vars + 1 := by
    simp only [List.length_append, List.length_cons, List.length_nil]
    omega
  rw [R1CSShape.is_sat_relaxed, if_pos ⟨h1, h2, h3⟩]
  split
  · rename_i e heq
    rw [multiply_vec_eq_ok S _ hz] at heq
    exact absurd heq (by simp)
  · rename_i Az Bz Cz heq
    rw [multiply_vec_eq_ok S _ hz] at heq
    obtain ⟨hA, hB, hC⟩ : sparse_matrix_vec_product S.A S.num_cons _ = Az
        ∧ sparse_matrix_vec_product S.B S.num_cons _ = Bz
        ∧ sparse_matrix_vec_product S.C S.num_cons _ = Cz := by
      have := Except.ok.inj heq
      exact ⟨congrArg Prod.fst this, congrArg Prod.fst (congrArg Prod.snd this),
        congrArg Prod.snd (congrArg Prod.snd this)⟩
    subst hA hB hC
    rw [if_pos ⟨length_sparse_matrix_vec_product S.A S.num_cons _,
      length_sparse_matrix_vec_product S.B S.num_cons _,
      length_sparse_matrix_vec_product S.C S.num_cons _⟩]
    refine if_congr ?_ rfl rfl
    constructor
    · intro hc
      refine ⟨?_, hc.2⟩
      have := (indicator_sum_eq_zero_iff S.num_cons _).mp hc.1
      intro i hi
      have hni := this i hi
      exact not_not.mp hni
    · intro hc
      refine ⟨?_, hc.2⟩
      apply (indicator_sum_eq_zero_iff S.num_cons _).mpr
      intro i hi
      exact not_not.mpr (hc.1 i hi)

theorem is_sat_relaxed_ok_lengths (S : R1CSShape F) (ck : CommitmentKey F)
    (U : RelaxedR1CSInstance F) (W : RelaxedR1CSWitness F)
    (h : S.is_sat_relaxed ck U W = some (Except.ok ())) :
    W.W.length = S.num_vars ∧ W.E.length = S.num_cons ∧ U.X.length = S.num_io := by
  by_contra hcon
  rw [R1CSShape.is_sat_relaxed, if_neg hcon] at h
  exact absurd h (by simp)

theorem is_sat_eq (S : R1CSShape F) (ck : CommitmentKey F)
    (U : R1CSInstance F) (W : R1CSWitness F)
    (h1 : W.W.length = S.num_vars) (h2 : U.X.length = S.num_io) :
    S.is_sat ck U W =
      if (∀ i < S.num_cons,
            (sparse_matrix_vec_product S.A S.num_cons (W.W ++ [1] ++ U.X)).getD i 0
              * (sparse_matrix_vec_product S.B S.num_cons (W.W ++ [1] ++ U.X)).getD i 0
              = (sparse_matrix_vec_product S.C S.num_cons
                  (W.W ++ [1] ++ U.X)).getD i 0)
          ∧ U.comm_W = commit ck W.W then
        some (Except.ok ())
      else some (Except.error SpartanError.UnSat) := by
  have hz : (W.W ++ [(1 : F)] ++ U.X).length = S.num_io + S.num_vars + 1 := by
    simp only [List.length_append, List.length_cons, List.length_nil]
    omega
  rw [R1CSShape.is_sat, if_pos ⟨h1, h2⟩]
  split
  · rename_i e heq
    rw [multiply_vec_eq_ok S _ hz] at heq
    exact absurd heq (by simp)
  · rename_i Az Bz Cz heq
    rw [multiply_vec_eq_ok S _ hz] at heq
    obtain ⟨hA, hB, hC⟩ : sparse_matrix_vec_product S.A S.num_cons _ = Az
        ∧ sparse_matrix_vec_product S.B S.num_cons _ = Bz
        ∧ sparse_matrix_vec_product S.C S.num_cons _ = Cz := by
      have := Except.ok.inj heq
      exact ⟨congrArg Prod.fst this, congrArg Prod.fst (congrArg Prod.snd this),
        congrArg Prod.snd (congrArg Prod.snd this)⟩
    subst hA hB hC
    rw [if_pos ⟨length_sparse_matrix_vec_product S.A S.num_cons _,
      length_sparse_matrix_vec_product S.B S.num_cons _,
      length_sparse_matrix_vec_product S.C S.num_cons _⟩]
    refine if_congr ?_ rfl rfl
    constructor
    · intro hc
      refine ⟨?_, hc.2⟩
      have := (indicator_sum_eq_zero_iff S.num_cons _).mp hc.1
      intro i hi
      exact not_not.mp (this i hi)
    · intro hc
      refine ⟨?_, hc.2⟩
      apply (indicator_sum_eq_zero_iff S.num_cons _).mpr
      intro i hi
      exact not_not.mpr (hc.1 i hi)

theorem is_sat_ok_lengths (S : R1CSShape F) (ck : CommitmentKey F)
    (U : R1CSInstance F) (W : R1CSWitness F)
    (h : S.is_sat ck U W = some (Except.ok ())) :
    W.W.length = S.num_vars ∧ U.X.length = S.num_io := by
  by_contra hcon
  rw [R1CSShape.is_sat, if_neg hcon] at h
  exact absurd h (by simp)

/-! ### Helper lemmas: pad -/

theorem pad_dims (S : R1CSShape F) :
    S.pad.num_vars = next_power_of_two (max S.num_vars S.num_cons)
    ∧ S.pad.num_cons = next_power_of_two (max S.num_vars S.num_cons) := by
  simp only [R1CSShape.pad]
  split_ifs with h1 h2
  · exact h1
  · exact ⟨rfl, rfl⟩
  · exact ⟨rfl, rfl⟩

theorem pad_of_regular (S : R1CSShape F) (h : S.num_vars = S.num_cons)
    (hpow : ∃ k, S.num_vars = 2 ^ k) : S.pad = S := by
  have hm : next_power_of_two (max S.num_vars S.num_cons) = S.num_vars := by
    rw [← h, max_self, next_power_of_two_of_pow _ hpow]
  simp only [R1CSShape.pad]
  rw [if_pos ⟨hm.symm, by rw [hm, h]⟩]

theorem pad_of_grow (S : R1CSShape F)
    (hm : S.num_vars ≠ next_power_of_two (max S.num_vars S.num_cons)) :
    S.pad =
      { num_cons := next_power_of_two (max S.num_vars S.num_cons),
        num_vars := next_power_of_two (max S.num_vars S.num_cons),
        num_io := S.num_io,
        A := S.A.map (fun e =>
          (e.1, pad_col S.num_vars (next_power_of_two (max S.num_vars S.num_cons)) e.2.1,
            e.2.2)),
        B := S.B.map (fun e =>
          (e.1, pad_col S.num_vars (next_power_of_two (max S.num_vars S.num_cons)) e.2.1,
            e.2.2)),
        C := S.C.map (fun e =>
          (e.1, pad_col S.num_vars (next_power_of_two (max S.num_vars S.num_cons)) e.2.1,
            e.2.2)) } := by
  simp only [R1CSShape.pad]
  rw [if_neg (fun hand => hm hand.1), if_neg hm]

theorem num_vars_le_npt_max (S : R1CSShape F) :
    S.num_vars ≤ next_power_of_two (max S.num_vars S.num_cons) :=
  le_trans (le_max_left _ _) (le_next_power_of_two _)

/-! ### Claims C3 and C4 -/

/-- Claim C4: padding is idempotent: `pad (pad S) = pad S` for every shape;
a shape whose `num_vars` and `num_cons` already equal the next power of two
is returned unchanged by `pad` (first branch of the source). -/
theorem padding_idempotence (S : R1CSShape F) : S.pad.pad = S.pad := by
  obtain ⟨hv, hc⟩ := pad_dims S
  exact pad_of_regular S.pad (by rw [hv, hc])
    ⟨(next_power_of_two_is_pow (max S.num_vars S.num_cons)).choose,
      by rw [hv]; exact (next_power_of_two_is_pow _).choose_spec⟩

/-- Claim C4 witness: idempotence evaluated on a concrete growing shape. -/
theorem padding_idempotence_witness :
    (R1CSShape.pad (R1CSShape.pad
        { num_cons := 3, num_vars := 1, num_io := 1,
          A := [(0, 2, (5 : Int))], B := [], C := [] }))
      = R1CSShape.pad
        { num_cons := 3, num_vars := 1, num_io := 1,
          A := [(0, 2, (5 : Int))], B := [], C := [] } :=
  padding_idempotence _

/-- Claim C3: when the variable block must grow to
`m = next_power_of_two (max num_vars num_cons)` (i.e. `num_vars ≠ m`), `pad`
maps every matrix entry through `pad_col` — shifting columns `≥ num_vars` by
`m − num_vars` and fixing columns `< num_vars` — and every (row, col, val)
triple of A, B, C evaluates against the padded evaluation vector
(witness zero-extended to length m, then the u-slot, then X) to the same
scalar as against the unpadded vector. -/
theorem column_remap_correctness (S : R1CSShape F)
    (hm : S.num_vars ≠ next_power_of_two (max S.num_vars S.num_cons))
    (W X : List F) (u : F) (hW : W.length = S.num_vars) :
    (S.pad.A = S.A.map (fun e =>
        (e.1, pad_col S.num_vars (next_power_of_two (max S.num_vars S.num_cons)) e.2.1,
          e.2.2))
      ∧ S.pad.B = S.B.map (fun e =>
        (e.1, pad_col S.num_vars (next_power_of_two (max S.num_vars S.num_cons)) e.2.1,
          e.2.2))
      ∧ S.pad.C = S.C.map (fun e =>
        (e.1, pad_col S.num_vars (next_power_of_two (max S.num_vars S.num_cons)) e.2.1,
          e.2.2)))
    ∧ ∀ e ∈ S.A ++ S.B ++ S.C,
        e.2.2 * (W ++ List.replicate
              (next_power_of_two (max S.num_vars S.num_cons) - S.num_vars) 0
            ++ [u] ++ X).getD
            (pad_col S.num_vars (next_power_of_two (max S.num_vars S.num_cons)) e.2.1) 0
          = e.2.2 * (W ++ [u] ++ X).getD e.2.1 0 := by
  have hle : S.num_vars ≤ next_power_of_two (max S.num_vars S.num_cons) :=
    num_vars_le_npt_max S
  constructor
  · rw [pad_of_grow S hm]
    exact ⟨rfl, rfl, rfl⟩
  · intro e _
    set m := next_power_of_two (max S.num_vars S.num_cons) with hmdef
    have hlen2 : (W ++ List.replicate (m - S.num_vars) (0 : F)).length = m := by
      rw [List.length_append, List.length_replicate, hW]
      omega
    by_cases hc : S.num_vars ≤ e.2.1
    · have hsplit : W ++ List.replicate (m - S.num_vars) (0 : F) ++ [u] ++ X
          = (W ++ List.replicate (m - S.num_vars) 0) ++ ([u] ++ X) := by
        rw [List.append_assoc]
      have hsplit2 : W ++ [u] ++ X = W ++ ([u] ++ X) := by
        rw [List.append_assoc]
      have hL : (W ++ List.replicate (m - S.num_vars) (0 : F) ++ [u] ++ X).getD
            (e.2.1 + m - S.num_vars) 0 = ([u] ++ X).getD (e.2.1 - S.num_vars) 0 := by
        rw [hsplit, List.getD_append_right _ _ _ _ (by rw [hlen2]; omega)]
        have hidx : e.2.1 + m - S.num_vars
              - (W ++ List.replicate (m - S.num_vars) (0 : F)).length
            = e.2.1 - S.num_vars := by
          rw [hlen2]
          omega
        rw [hidx]
      have hR : (W ++ [u] ++ X).getD e.2.1 0 = ([u] ++ X).getD (e.2.1 - S.num_vars) 0 := by
        rw [hsplit2, List.getD_append_right _ _ _ _ (by rw [hW]; omega)]
        rw [hW]
      rw [pad_col, if_pos hc, hL, hR]
    · push_neg at hc
      have hsplit : W ++ List.replicate (m - S.num_vars) (0 : F) ++ [u] ++ X
          = W ++ (List.replicate (m - S.num_vars) 0 ++ ([u] ++ X)) := by
        rw [List.append_assoc, List.append_assoc]
      have hsplit2 : W ++ [u] ++ X = W ++ ([u] ++ X) := by
        rw [List.append_assoc]
      have hL : (W ++ List.replicate (m - S.num_vars) (0 : F) ++ [u] ++ X).getD e.2.1 0
          = W.getD e.2.1 0 := by
        rw [hsplit, List.getD_append _ _ _ _ (by omega)]
      have hR : (W ++ [u] ++ X).getD e.2.1 0 = W.getD e.2.1 0 := by
        rw [hsplit2, List.getD_append _ _ _ _ (by omega)]
      rw [pad_col, if_neg (by omega), hL, hR]

/-- Claim C3 witness: the remap evaluated on a concrete shape whose variable
block grows from 1 to 2 (constraint count 2), with a constant-slot column. -/
theorem column_remap_correctness_witness :
    ((R1CSShape.pad (⟨2, 1, 1, [(0, 2, (5 : Int))], [(1, 0, 3)], []⟩ : R1CSShape Int)).A
        = [(0, 2, (5 : Int))].map (fun e =>
            (e.1, pad_col 1 (next_power_of_two (max 1 2)) e.2.1, e.2.2))
      ∧ (R1CSShape.pad (⟨2, 1, 1, [(0, 2, (5 : Int))], [(1, 0, 3)], []⟩ : R1CSShape Int)).B
        = [(1, 0, (3 : Int))].map (fun e =>
            (e.1, pad_col 1 (next_power_of_two (max 1 2)) e.2.1, e.2.2))
      ∧ (R1CSShape.pad (⟨2, 1, 1, [(0, 2, (5 : Int))], [(1, 0, 3)], []⟩ : R1CSShape Int)).C
        = ([] : List (Nat × Nat × Int)).map (fun e =>
            (e.1, pad_col 1 (next_power_of_two (max 1 2)) e.2.1, e.2.2)))
    ∧ ∀ e ∈ ([(0, 2, (5 : Int))] ++ [(1, 0, 3)] ++ []),
        e.2.2 * (([7] : List Int) ++ List.replicate (next_power_of_two (max 1 2) - 1) 0
            ++ [1] ++ [9]).getD
            (pad_col 1 (next_power_of_two (max 1 2)) e.2.1) 0
          = e.2.2 * (([7] : List Int) ++ [1] ++ [9]).getD e.2.1 0 :=
  column_remap_correctness
    (⟨2, 1, 1, [(0, 2, (5 : Int))], [(1, 0, 3)], []⟩ : R1CSShape Int)
    (by decide) [7] [9] 1 rfl

/-! ### Helper lemmas: is_valid, and claims C9, C10, C5, C6 -/

theorem is_valid_ok_iff (nc nv ni : Nat) (M : List (Nat × Nat × F)) :
    R1CSShape.is_valid nc nv ni M = Except.ok ()
      ↔ ∀ e ∈ M, e.1 < nc ∧ e.2.1 ≤ ni + nv := by
  rw [R1CSShape.is_valid]
  split_ifs with h
  · simp only [List.all_eq_true, Bool.and_eq_true, decide_eq_true_eq] at h
    exact ⟨fun _ => h, fun _ => rfl⟩
  · simp only [List.all_eq_true, Bool.and_eq_true, decide_eq_true_eq] at h
    constructor
    · intro hcon
      exact absurd hcon (by simp)
    · intro hall
      exact absurd hall h

theorem is_valid_cases (nc nv ni : Nat) (M : List (Nat × Nat × F)) :
    R1CSShape.is_valid nc nv ni M = Except.ok ()
      ∨ R1CSShape.is_valid nc nv ni M = Except.error SpartanError.InvalidIndex := by
  rw [R1CSShape.is_valid]
  split_ifs
  · exact Or.inl rfl
  · exact Or.inr rfl

/-- Claim C9: `new` returns the invalid-index error exactly when some triple
of A, B, or C has `row ≥ num_cons` or `col > num_io + num_vars` (one error
regardless of which matrix violated it, and independent of any arithmetic);
otherwise it returns the raw shape, immediately padded. -/
theorem new_validation (num_cons num_vars num_io : Nat)
    (A B C : List (Nat × Nat × F)) :
    (R1CSShape.new num_cons num_vars num_io A B C
        = Except.error SpartanError.InvalidIndex
      ↔ ∃ e ∈ A ++ B ++ C, num_cons ≤ e.1 ∨ num_io + num_vars < e.2.1)
    ∧ ((∀ e ∈ A ++ B ++ C, e.1 < num_cons ∧ e.2.1 ≤ num_io + num_vars) →
        R1CSShape.new num_cons num_vars num_io A B C
          = Except.ok (R1CSShape.pad
              (⟨num_cons, num_vars, num_io, A, B, C⟩ : R1CSShape F))) := by
  by_cases hall : ∀ e ∈ A ++ B ++ C, e.1 < num_cons ∧ e.2.1 ≤ num_io + num_vars
  · have hA : R1CSShape.is_valid num_cons num_vars num_io A = Except.ok () :=
      (is_valid_ok_iff _ _ _ _).mpr (fun e he => hall e (by simp [he]))
    have hB : R1CSShape.is_valid num_cons num_vars num_io B = Except.ok () :=
      (is_valid_ok_iff _ _ _ _).mpr (fun e he => hall e (by simp [he]))
    have hC : R1CSShape.is_valid num_cons num_vars num_io C = Except.ok () :=
      (is_valid_ok_iff _ _ _ _).mpr (fun e he => hall e (by simp [he]))
    have hok : R1CSShape.new num_cons num_vars num_io A B C
        = Except.ok (R1CSShape.pad
            (⟨num_cons, num_vars, num_io, A, B, C⟩ : R1CSShape F)) := by
      rw [R1CSShape.new, hA, hB, hC]
    constructor
    · rw [hok]
      constructor
      · intro hcon
        exact absurd hcon (by simp)
      · intro hbad
        obtain ⟨e, he, hb⟩ := hbad
        have := hall e he
        omega
    · intro _
      exact hok
  · have hbad : ∃ e ∈ A ++ B ++ C, num_cons ≤ e.1 ∨ num_io + num_vars < e.2.1 := by
      push_neg at hall
      obtain ⟨e, he, hb⟩ := hall
      exact ⟨e, he, by omega⟩
    have herr : R1CSShape.new num_cons num_vars num_io A B C
        = Except.error SpartanError.InvalidIndex := by
      have hnotall : ¬ (R1CSShape.is_valid num_cons num_vars num_io A = Except.ok ()
          ∧ R1CSShape.is_valid num_cons num_vars num_io B = Except.ok ()
          ∧ R1CSShape.is_valid num_cons num_vars num_io C = Except.ok ()) := by
        intro ⟨hA, hB, hC⟩
        apply hall
        intro e he
        rcases List.mem_append.mp he with he2 | heC
        · rcases List.mem_append.mp he2 with heA | heB
          · exact ((is_valid_ok_iff _ _ _ _).mp hA) e heA
          · exact ((is_valid_ok_iff _ _ _ _).mp hB) e heB
        · exact ((is_valid_ok_iff _ _ _ _).mp hC) e heC
      rcases is_valid_cases num_cons num_vars num_io A with hA | hA
      · rcases is_valid_cases num_cons num_vars num_io B with hB | hB
        · rcases is_valid_cases num_cons num_vars num_io C with hC | hC
          · exact absurd ⟨hA, hB, hC⟩ hnotall
          · simp [R1CSShape.new, hA, hB, hC]
        · rcases is_valid_cases num_cons num_vars num_io C with hC | hC
            <;> simp [R1CSShape.new, hA, hB, hC]
      · rcases is_valid_cases num_cons num_vars num_io B with hB | hB
          <;> rcases is_valid_cases num_cons num_vars num_io C with hC | hC
          <;> simp [R1CSShape.new, hA, hB, hC]
    exact ⟨by rw [herr]; exact ⟨fun _ => hbad, fun _ => rfl⟩, fun hgood => absurd hgood hall⟩

/-- Claim C9 witness: a concrete in-range invocation returning a padded shape,
and a concrete out-of-range invocation returning `InvalidIndex`. -/
theorem new_validation_witness :
    ((∀ e ∈ ([((0 : Nat), (2 : Nat), (5 : Int))] ++ [] ++ []),
        e.1 < 1 ∧ e.2.1 ≤ 1 + 1) →
      R1CSShape.new 1 1 1 [((0 : Nat), (2 : Nat), (5 : Int))] [] []
        = Except.ok (R1CSShape.pad
            (⟨1, 1, 1, [((0 : Nat), (2 : Nat), (5 : Int))], [], []⟩ : R1CSShape Int)))
    ∧ (R1CSShape.new 1 1 1 [((3 : Nat), (0 : Nat), (5 : Int))] [] []
        = Except.error SpartanError.InvalidIndex
      ↔ ∃ e ∈ ([((3 : Nat), (0 : Nat), (5 : Int))] ++ [] ++ []),
          1 ≤ e.1 ∨ 1 + 1 < e.2.1) :=
  ⟨(new_validation 1 1 1 [((0 : Nat), (2 : Nat), (5 : Int))] [] []).2,
   (new_validation 1 1 1 [((3 : Nat), (0 : Nat), (5 : Int))] [] []).1⟩

/-- Claim C10: `RelaxedR1CSWitness::fold` checks only that the two `W`
vectors have equal length; it never checks `T`, and when `T` is shorter than
`E` it returns `Ok` with the error vector silently truncated to `T`'s length
(the zipped `E` has length `min E.len T.len`), breaking the length-num_cons
invariant rather than reporting an error. -/
theorem fold_truncates_E (W1 : RelaxedR1CSWitness F) (W2 : R1CSWitness F)
    (T : List F) (r : F) (hW : W1.W.length = W2.W.length)
    (hT : T.length < W1.E.length) :
    ∃ Wf, RelaxedR1CSWitness.fold W1 W2 T r = Except.ok Wf
      ∧ Wf.E.length = min W1.E.length T.length
      ∧ Wf.E.length = T.length ∧ Wf.E.length < W1.E.length := by
  refine ⟨⟨List.zipWith (fun a b => a + r * b) W1.W W2.W,
    List.zipWith (fun a b => a + r * b) W1.E T⟩, ?_, ?_, ?_, ?_⟩
  · rw [RelaxedR1CSWitness.fold, if_neg (by simp [hW])]
  · exact List.length_zipWith _ _ _
  · rw [List.length_zipWith]
    omega
  · rw [List.length_zipWith]
    omega

/-- Claim C10 witness: a concrete fold with `T` shorter than `E` succeeding
with a truncated error vector. -/
theorem fold_truncates_E_witness :
    ∃ Wf, RelaxedR1CSWitness.fold
        (⟨[1], [2, 3]⟩ : RelaxedR1CSWitness Int) ⟨[4]⟩ [5] 7 = Except.ok Wf
      ∧ Wf.E.length = min 2 1 ∧ Wf.E.length = 1 ∧ Wf.E.length < 2 :=
  fold_truncates_E (⟨[1], [2, 3]⟩ : RelaxedR1CSWitness Int) ⟨[4]⟩ [5] 7
    rfl (by decide)

/-- Claim C5 counterexample: on the padded tiny shape
(`num_cons = num_vars = 2`, `num_io = 1`) the vector `z = [3,4,0,1,12]` has
length 5, not the required `num_io + num_vars + 1 = 4`, so `multiply_vec`
does not return the claimed `Ok` value. -/
theorem multiply_vec_scenario_counterexample :
    (R1CSShape.pad
        (⟨1, 2, 1, [(0, 0, (1 : Int))], [(0, 1, 1)], [(0, 2, 1)]⟩ : R1CSShape Int)).multiply_vec
        [3, 4, 0, 1, 12]
      ≠ Except.ok ([3, 0], [4, 0], [12, 0]) := by decide

/-- Claim C5 amended: `multiply_vec` on the padded tiny shape rejects
`z = [3,4,0,1,12]` with the invalid-witness-length error — the padded shape
expects `z` of length `num_io + num_vars + 1 = 4`, and this length check runs
before the parallel kernel, so the error return is the program's actual
behavior (no statement is made about the kernel branch, whose chunking
arithmetic panics on this 1-entry-per-matrix shape). -/
theorem multiply_vec_scenario_amended :
    (R1CSShape.pad
        (⟨1, 2, 1, [(0, 0, (1 : Int))], [(0, 1, 1)], [(0, 2, 1)]⟩ : R1CSShape Int)).multiply_vec
        [3, 4, 0, 1, 12]
      = Except.error SpartanError.InvalidWitnessLength := by
  decide

/-- Claim C6 (code bug): the claimed contract — for every padded shape and
well-sized inputs, `is_sat` returns success exactly when every row satisfies
`Az[i]·Bz[i] = Cz[i]` and `comm_W` opens to `W`, and the single `UnSat` error
otherwise — is the spec's intent, but the real kernel never returns on small
shapes: with empty matrices `thread_chunk_size = 0 / (4·threads) = 0` makes
`par_chunks(0)` assert, and with `num_cons = 1` the `remaining_rows`
subtraction underflows, so at the failing input below the program panics
instead of producing either verdict.  Under the spec-intended kernel
semantics embedded here the checks hold and `is_sat` yields success. -/
theorem is_sat_code_bug_eval :
    (⟨1, 1, 0, [], [], []⟩ : R1CSShape Int).is_sat [1] ⟨5, []⟩ ⟨[5]⟩
      = some (Except.ok ()) := by
  decide

theorem getD_replicate_zero (n i : Nat) :
    (List.replicate n (0 : F)).getD i 0 = 0 := by
  rcases lt_or_ge i n with hi | hi
  · rw [List.getD_eq_getElem?_getD]
    simp [List.getElem?_replicate, hi]
  · exact getD_of_length_le _ _ (by simpa using hi)

/-- Claim C2: lifting a satisfying standard pair through
`from_r1cs_instance` / `from_r1cs_witness` (which sets `u = 1` and
`E = 0^num_cons`) always yields a pair accepted by `is_sat_relaxed`, and the
default commitment the lift stores in `comm_E` equals `commit ck E` for the
zero error vector. -/
theorem satisfiability_agreement (S : R1CSShape F) (ck : CommitmentKey F)
    (U : R1CSInstance F) (W : R1CSWitness F) (_hpad : S.pad = S)
    (h : S.is_sat ck U W = some (Except.ok ())) :
    S.is_sat_relaxed ck (RelaxedR1CSInstance.from_r1cs_instance ck S U)
        (RelaxedR1CSWitness.from_r1cs_witness S W) = some (Except.ok ())
    ∧ (RelaxedR1CSInstance.from_r1cs_instance ck S U).comm_E
        = commit ck (List.replicate S.num_cons 0) := by
  obtain ⟨hW, hX⟩ := is_sat_ok_lengths S ck U W h
  rw [is_sat_eq S ck U W hW hX] at h
  have hcond : (∀ i < S.num_cons,
      (sparse_matrix_vec_product S.A S.num_cons (W.W ++ [1] ++ U.X)).getD i 0
        * (sparse_matrix_vec_product S.B S.num_cons (W.W ++ [1] ++ U.X)).getD i 0
        = (sparse_matrix_vec_product S.C S.num_cons (W.W ++ [1] ++ U.X)).getD i 0)
      ∧ U.comm_W = commit ck W.W := by
    by_contra hn
    rw [if_neg hn] at h
    exact absurd h (by simp)
  obtain ⟨hrows, hcomm⟩ := hcond
  have hu : (RelaxedR1CSInstance.from_r1cs_instance ck S U).u = 1 := rfl
  have hXe : (RelaxedR1CSInstance.from_r1cs_instance ck S U).X = U.X := rfl
  have hcW : (RelaxedR1CSInstance.from_r1cs_instance ck S U).comm_W = U.comm_W := rfl
  have hcE : (RelaxedR1CSInstance.from_r1cs_instance ck S U).comm_E = 0 := rfl
  have hWe : (RelaxedR1CSWitness.from_r1cs_witness S W).W = W.W := rfl
  have hEe : (RelaxedR1CSWitness.from_r1cs_witness S W).E
      = List.replicate S.num_cons 0 := rfl
  constructor
  · rw [is_sat_relaxed_eq S ck _ _ (by rw [hWe]; exact hW)
      (by rw [hEe, List.length_replicate]) (by rw [hXe]; exact hX)]
    rw [if_pos ?cond]
    case cond =>
      rw [hu, hXe, hWe, hEe, hcW, hcE]
      refine ⟨?_, hcomm, (commit_replicate_zero ck S.num_cons).symm⟩
      intro i hi
      rw [getD_replicate_zero, hrows i hi]
      ring
  · rw [hcE]
    exact (commit_replicate_zero ck S.num_cons).symm

/-- Claim C2 witness: the lift of a concrete satisfying pair (trivial padded
shape, key `[1]`, witness `[5]`, commitment `5`) is accepted by
`is_sat_relaxed`, with `comm_E = commit ck 0`. -/
theorem satisfiability_agreement_witness :
    (⟨1, 1, 0, [], [], []⟩ : R1CSShape Int).is_sat_relaxed [1]
        (RelaxedR1CSInstance.from_r1cs_instance [1]
          (⟨1, 1, 0, [], [], []⟩ : R1CSShape Int) ⟨5, []⟩)
        (RelaxedR1CSWitness.from_r1cs_witness
          (⟨1, 1, 0, [], [], []⟩ : R1CSShape Int) ⟨[5]⟩)
      = some (Except.ok ())
    ∧ (RelaxedR1CSInstance.from_r1cs_instance [1]
        (⟨1, 1, 0, [], [], []⟩ : R1CSShape Int) ⟨5, []⟩).comm_E
      = commit [1] (List.replicate 1 0) :=
  satisfiability_agreement (⟨1, 1, 0, [], [], []⟩ : R1CSShape Int) [1]
    ⟨5, []⟩ ⟨[5]⟩ (by decide) (by decide)

/-! ### Claim C1: folding soundness -/

theorem commit_T_eq (S : R1CSShape F) (ck : CommitmentKey F)
    (U1 : RelaxedR1CSInstance F) (W1 : RelaxedR1CSWitness F)
    (U2 : R1CSInstance F) (W2 : R1CSWitness F)
    (hz1 : (W1.W ++ [U1.u] ++ U1.X).length = S.num_io + S.num_vars + 1)
    (hz2 : (W2.W ++ [(1 : F)] ++ U2.X).length = S.num_io + S.num_vars + 1) :
    S.commit_T ck U1 W1 U2 W2 = Except.ok
      (List.zipWith (fun x d => x - d)
        (List.zipWith (fun x c => x - c)
          (List.zipWith (fun a b => a + b)
            ((List.range (sparse_matrix_vec_product S.A S.num_cons
                (W1.W ++ [U1.u] ++ U1.X)).length).map (fun i =>
              (sparse_matrix_vec_product S.A S.num_cons
                  (W1.W ++ [U1.u] ++ U1.X)).getD i 0
                * (sparse_matrix_vec_product S.B S.num_cons
                  (W2.W ++ [1] ++ U2.X)).getD i 0))
            ((List.range (sparse_matrix_vec_product S.A S.num_cons
                (W2.W ++ [1] ++ U2.X)).length).map (fun i =>
              (sparse_matrix_vec_product S.A S.num_cons
                  (W2.W ++ [1] ++ U2.X)).getD i 0
                * (sparse_matrix_vec_product S.B S.num_cons
                  (W1.W ++ [U1.u] ++ U1.X)).getD i 0)))
          ((List.range (sparse_matrix_vec_product S.C S.num_cons
              (W2.W ++ [1] ++ U2.X)).length).map (fun i =>
            U1.u * (sparse_matrix_vec_product S.C S.num_cons
                (W2.W ++ [1] ++ U2.X)).getD i 0)))
        ((List.range (sparse_matrix_vec_product S.C S.num_cons
            (W1.W ++ [U1.u] ++ U1.X)).length).map (fun i =>
          (sparse_matrix_vec_product S.C S.num_cons
              (W1.W ++ [U1.u] ++ U1.X)).getD i 0)),
      commit ck (List.zipWith (fun x d => x - d)
        (List.zipWith (fun x c => x - c)
          (List.zipWith (fun a b => a + b)
            ((List.range (sparse_matrix_vec_product S.A S.num_cons
                (W1.W ++ [U1.u] ++ U1.X)).length).map (fun i =>
              (sparse_matrix_vec_product S.A S.num_cons
                  (W1.W ++ [U1.u] ++ U1.X)).getD i 0
                * (sparse_matrix_vec_product S.B S.num_cons
                  (W2.W ++ [1] ++ U2.X)).getD i 0))
            ((List.range (sparse_matrix_vec_product S.A S.num_cons
                (W2.W ++ [1] ++ U2.X)).length).map (fun i =>
              (sparse_matrix_vec_product S.A S.num_cons
                  (W2.W ++ [1] ++ U2.X)).getD i 0
                * (sparse_matrix_vec_product S.B S.num_cons
                  (W1.W ++ [U1.u] ++ U1.X)).getD i 0)))
          ((List.range (sparse_matrix_vec_product S.C S.num_cons
              (W2.W ++ [1] ++ U2.X)).length).map (fun i =>
            U1.u * (sparse_matrix_vec_product S.C S.num_cons
                (W2.W ++ [1] ++ U2.X)).getD i 0)))
        ((List.range (sparse_matrix_vec_product S.C S.num_cons
            (W1.W ++ [U1.u] ++ U1.X)).length).map (fun i =>
          (sparse_matrix_vec_product S.C S.num_cons
              (W1.W ++ [U1.u] ++ U1.X)).getD i 0)))) := by
  rw [R1CSShape.commit_T, multiply_vec_eq_ok S _ hz1, multiply_vec_eq_ok S _ hz2]

theorem commit_T_spec (S : R1CSShape F) (ck : CommitmentKey F)
    (U1 : RelaxedR1CSInstance F) (W1 : RelaxedR1CSWitness F)
    (U2 : R1CSInstance F) (W2 : R1CSWitness F) (T : List F) (cT : Commitment F)
    (hz1 : (W1.W ++ [U1.u] ++ U1.X).length = S.num_io + S.num_vars + 1)
    (hz2 : (W2.W ++ [(1 : F)] ++ U2.X).length = S.num_io + S.num_vars + 1)
    (hT : S.commit_T ck U1 W1 U2 W2 = Except.ok (T, cT)) :
    T.length = S.num_cons ∧ cT = commit ck T ∧
    ∀ i < S.num_cons, T.getD i 0 =
      (sparse_matrix_vec_product S.A S.num_cons (W1.W ++ [U1.u] ++ U1.X)).getD i 0
        * (sparse_matrix_vec_product S.B S.num_cons (W2.W ++ [1] ++ U2.X)).getD i 0
      + (sparse_matrix_vec_product S.A S.num_cons (W2.W ++ [1] ++ U2.X)).getD i 0
        * (sparse_matrix_vec_product S.B S.num_cons (W1.W ++ [U1.u] ++ U1.X)).getD i 0
      - U1.u * (sparse_matrix_vec_product S.C S.num_cons (W2.W ++ [1] ++ U2.X)).getD i 0
      - (sparse_matrix_vec_product S.C S.num_cons (W1.W ++ [U1.u] ++ U1.X)).getD i 0 := by
  rw [commit_T_eq S ck U1 W1 U2 W2 hz1 hz2] at hT
  have hpair := Except.ok.inj hT
  have hTval := congrArg Prod.fst hpair
  have hcTval := congrArg Prod.snd hpair
  simp only at hTval hcTval
  have hTlen : T.length = S.num_cons := by
    rw [← hTval]
    simp [List.length_zipWith, List.length_map, List.length_range,
      length_sparse_matrix_vec_product]
  refine ⟨hTlen, by rw [← hcTval, hTval], ?_⟩
  intro i hi
  rw [← hTval]
  rw [getD_zipWith_of_zero (fun x d => x - d) (by ring) _ _
    (by simp [List.length_zipWith, List.length_map, List.length_range,
      length_sparse_matrix_vec_product]) i]
  rw [getD_zipWith_of_zero (fun x c => x - c) (by ring) _ _
    (by simp [List.length_zipWith, List.length_map, List.length_range,
      length_sparse_matrix_vec_product]) i]
  rw [getD_zipWith_of_zero (fun a b => a + b) (by ring) _ _
    (by simp [List.length_map, List.length_range,
      length_sparse_matrix_vec_product]) i]
  rw [getD_range_map _ _ i
    (by rw [length_sparse_matrix_vec_product]; exact hi)]
  rw [getD_range_map _ _ i
    (by rw [length_sparse_matrix_vec_product]; exact hi)]
  rw [getD_range_map _ _ i
    (by rw [length_sparse_matrix_vec_product]; exact hi)]
  rw [getD_range_map _ _ i
    (by rw [length_sparse_matrix_vec_product]; exact hi)]

/-- Claim C1: folding soundness.  For a padded shape, a relaxed pair accepted
by `is_sat_relaxed`, a standard pair accepted by `is_sat`, and any challenge
scalar `r`, the pair obtained from `commit_T` followed by the witness and
instance `fold`s is again accepted by `is_sat_relaxed` — exactly, for every
`r`. -/
theorem folding_soundness (S : R1CSShape F) (ck : CommitmentKey F)
    (U1 : RelaxedR1CSInstance F) (W1 : RelaxedR1CSWitness F)
    (U2 : R1CSInstance F) (W2 : R1CSWitness F) (r : F) (T : List F)
    (cT : Commitment F) (_hpad : S.pad = S)
    (h1 : S.is_sat_relaxed ck U1 W1 = some (Except.ok ()))
    (h2 : S.is_sat ck U2 W2 = some (Except.ok ()))
    (hT : S.commit_T ck U1 W1 U2 W2 = Except.ok (T, cT)) :
    ∃ Wf Uf, RelaxedR1CSWitness.fold W1 W2 T r = Except.ok Wf
      ∧ RelaxedR1CSInstance.fold U1 U2 cT r = Except.ok Uf
      ∧ S.is_sat_relaxed ck Uf Wf = some (Except.ok ()) := by
  obtain ⟨hW1, hE1, hX1⟩ := is_sat_relaxed_ok_lengths S ck U1 W1 h1
  obtain ⟨hW2, hX2⟩ := is_sat_ok_lengths S ck U2 W2 h2
  rw [is_sat_relaxed_eq S ck U1 W1 hW1 hE1 hX1] at h1
  have hc1 : (∀ i < S.num_cons,
      (sparse_matrix_vec_product S.A S.num_cons (W1.W ++ [U1.u] ++ U1.X)).getD i 0
        * (sparse_matrix_vec_product S.B S.num_cons (W1.W ++ [U1.u] ++ U1.X)).getD i 0
        = U1.u * (sparse_matrix_vec_product S.C S.num_cons
            (W1.W ++ [U1.u] ++ U1.X)).getD i 0 + W1.E.getD i 0)
      ∧ U1.comm_W = commit ck W1.W ∧ U1.comm_E = commit ck W1.E := by
    by_contra hn
    rw [if_neg hn] at h1
    exact absurd h1 (by simp)
  obtain ⟨hrows1, hcW1, hcE1⟩ := hc1
  rw [is_sat_eq S ck U2 W2 hW2 hX2] at h2
  have hc2 : (∀ i < S.num_cons,
      (sparse_matrix_vec_product S.A S.num_cons (W2.W ++ [1] ++ U2.X)).getD i 0
        * (sparse_matrix_vec_product S.B S.num_cons (W2.W ++ [1] ++ U2.X)).getD i 0
        = (sparse_matrix_vec_product S.C S.num_cons (W2.W ++ [1] ++ U2.X)).getD i 0)
      ∧ U2.comm_W = commit ck W2.W := by
    by_contra hn
    rw [if_neg hn] at h2
    exact absurd h2 (by simp)
  obtain ⟨hrows2, hcW2⟩ := hc2
  have hz1 : (W1.W ++ [U1.u] ++ U1.X).length = S.num_io + S.num_vars + 1 := by
    simp only [List.length_append, List.length_cons, List.length_nil]
    omega
  have hz2 : (W2.W ++ [(1 : F)] ++ U2.X).length = S.num_io + S.num_vars + 1 := by
    simp only [List.length_append, List.length_cons, List.length_nil]
    omega
  obtain ⟨hTlen, hcT, hTi⟩ := commit_T_spec S ck U1 W1 U2 W2 T cT hz1 hz2 hT
  have hWlen : W1.W.length = W2.W.length := hW1.trans hW2.symm
  have hfW : RelaxedR1CSWitness.fold W1 W2 T r = Except.ok
      ⟨List.zipWith (fun a b => a + r * b) W1.W W2.W,
       List.zipWith (fun a b => a + r * b) W1.E T⟩ := by
    rw [RelaxedR1CSWitness.fold, if_neg (by simp [hWlen])]
  have hfU : RelaxedR1CSInstance.fold U1 U2 cT r = Except.ok
      ⟨U1.comm_W + U2.comm_W * r, U1.comm_E + cT * r,
       List.zipWith (fun a b => a + r * b) U1.X U2.X, U1.u + r⟩ := rfl
  refine ⟨_, _, hfW, hfU, ?_⟩
  have hWf : (List.zipWith (fun a b => a + r * b) W1.W W2.W).length = S.num_vars := by
    rw [List.length_zipWith, hW1, hW2, min_self]
  have hEf : (List.zipWith (fun a b => a + r * b) W1.E T).length = S.num_cons := by
    rw [List.length_zipWith, hE1, hTlen, min_self]
  have hXf : (List.zipWith (fun a b => a + r * b) U1.X U2.X).length = S.num_io := by
    rw [List.length_zipWith, hX1, hX2, min_self]
  rw [is_sat_relaxed_eq S ck _ _ hWf hEf hXf]
  rw [if_pos ?cond]
  case cond =>
    dsimp only
    have hzf : List.zipWith (fun a b => a + r * b) W1.W W2.W ++ [U1.u + r]
          ++ List.zipWith (fun a b => a + r * b) U1.X U2.X
        = List.zipWith (fun a b => a + r * b) (W1.W ++ [U1.u] ++ U1.X)
            (W2.W ++ [1] ++ U2.X) := by
      rw [List.zipWith_append _ _ _ _ _ (by simp [hWlen]),
        List.zipWith_append _ _ _ _ _ hWlen]
      simp [mul_one]
    rw [hzf]
    refine ⟨?_, ?_, ?_⟩
    · intro i hi
      rw [getD_sparse_matrix_vec_product_linear S.A S.num_cons _ _ r
          (hz1.trans hz2.symm) i,
        getD_sparse_matrix_vec_product_linear S.B S.num_cons _ _ r
          (hz1.trans hz2.symm) i,
        getD_sparse_matrix_vec_product_linear S.C S.num_cons _ _ r
          (hz1.trans hz2.symm) i,
        getD_zipWith_of_zero (fun a b => a + r * b) (by ring) W1.E T
          (hE1.trans hTlen.symm) i,
        hTi i hi]
      have ha := hrows1 i hi
      have hb := hrows2 i hi
      linear_combination ha + r ^ 2 * hb
    · rw [hcW1, hcW2,
        commit_linear ck r W1.W W2.W hWlen]
      ring
    · rw [hcE1, hcT,
        commit_linear ck r W1.E T (hE1.trans hTlen.symm)]
      ring

/-- Claim C1 witness: folding a concrete accepted relaxed pair with a concrete
accepted standard pair (trivial padded shape, key `[1]`, challenge `2`)
produces an accepted relaxed pair. -/
theorem folding_soundness_witness :
    ∃ Wf Uf, RelaxedR1CSWitness.fold
        (⟨[0], [0]⟩ : RelaxedR1CSWitness Int) ⟨[5]⟩ [0] 2 = Except.ok Wf
      ∧ RelaxedR1CSInstance.fold
        (⟨0, 0, [], 0⟩ : RelaxedR1CSInstance Int) ⟨5, []⟩ 0 2 = Except.ok Uf
      ∧ (⟨1, 1, 0, [], [], []⟩ : R1CSShape Int).is_sat_relaxed [1] Uf Wf
        = some (Except.ok ()) :=
  folding_soundness (⟨1, 1, 0, [], [], []⟩ : R1CSShape Int) [1]
    (⟨0, 0, [], 0⟩ : RelaxedR1CSInstance Int) (⟨[0], [0]⟩ : RelaxedR1CSWitness Int)
    ⟨5, []⟩ ⟨[5]⟩ 2 [0] 0 (by decide) (by decide) (by decide) (by decide)

/-! ### Helper lemmas: equality polynomial and multilinear binding -/

theorem evals_cons (r0 : F) (rs : List F) :
    EqPolynomial.evals (⟨r0 :: rs⟩ : EqPolynomial F)
      = (EqPolynomial.evals (⟨rs⟩ : EqPolynomial F)).map (fun x => x - x * r0)
        ++ (EqPolynomial.evals (⟨rs⟩ : EqPolynomial F)).map (fun x => x * r0) :=
  rfl

theorem evals_length (r : List F) :
    (EqPolynomial.evals (⟨r⟩ : EqPolynomial F)).length = 2 ^ r.length := by
  induction r with
  | nil => rfl
  | cons r0 rs ih =>
    rw [evals_cons, List.length_append, List.length_map, List.length_map, ih,
      List.length_cons, pow_succ]
    ring

theorem foldl_mul_shift (l : List F) :
    ∀ a : F, l.foldl (fun acc item => acc * item) a
      = a * l.foldl (fun acc item => acc * item) 1 := by
  induction l with
  | nil =>
    intro a
    simp
  | cons b l ih =>
    intro a
    simp only [List.foldl_cons]
    rw [ih (a * b), ih (1 * b)]
    ring

theorem eq_evaluate_cons (r0 x0 : F) (rs xs : List F) :
    EqPolynomial.evaluate (⟨r0 :: rs⟩ : EqPolynomial F) (x0 :: xs)
      = (x0 * r0 + (1 - x0) * (1 - r0))
        * EqPolynomial.evaluate (⟨rs⟩ : EqPolynomial F) xs := by
  simp only [EqPolynomial.evaluate, List.zipWith_cons_cons, List.foldl_cons]
  rw [foldl_mul_shift _ (1 * (x0 * r0 + (1 - x0) * (1 - r0)))]
  ring

theorem getD_map_lt (f : F → F) (l : List F) (i : Nat) (hi : i < l.length) :
    (l.map f).getD i 0 = f (l.getD i 0) := by
  rw [List.getD_eq_getElem?_getD, List.getD_eq_getElem?_getD,
    List.getElem?_map, List.getElem?_eq_getElem hi]
  rfl

theorem index_to_bits_succ (ℓ i : Nat) :
    (index_to_bits (ℓ + 1) i : List F)
      = (if i / 2 ^ ℓ % 2 = 1 then 1 else 0) :: index_to_bits ℓ i := by
  rw [index_to_bits, List.range_succ_eq_map, List.map_cons, List.map_map]
  have harg : ∀ j : Nat, ℓ + 1 - 1 - (j + 1) = ℓ - 1 - j := by
    intro j
    omega
  have h0 : ℓ + 1 - 1 - 0 = ℓ := by omega
  rw [h0, index_to_bits]
  congr 1
  apply List.map_congr_left
  intro j _
  simp only [Function.comp_apply, Nat.succ_eq_add_one, harg j]
theorem index_to_bits_sub_pow (ℓ i : Nat) (h2 : 2 ^ ℓ ≤ i) :
    (index_to_bits ℓ i : List F) = index_to_bits ℓ (i - 2 ^ ℓ) := by
  rw [index_to_bits, index_to_bits]
  apply List.map_congr_left
  intro j hj
  have hjℓ : j < ℓ := List.mem_range.mp hj
  have he : ℓ - 1 - j < ℓ := by omega
  set e := ℓ - 1 - j with hedef
  have hpow : (2 : Nat) ^ ℓ = 2 ^ (ℓ - e - 1) * 2 * 2 ^ e := by
    have hsum : ℓ - e - 1 + 1 + e = ℓ := by omega
    calc (2 : Nat) ^ ℓ = 2 ^ (ℓ - e - 1 + 1 + e) := by rw [hsum]
      _ = 2 ^ (ℓ - e - 1) * 2 ^ 1 * 2 ^ e := by rw [pow_add, pow_add]
      _ = 2 ^ (ℓ - e - 1) * 2 * 2 ^ e := by norm_num
  have hdiv : i / 2 ^ e % 2 = (i - 2 ^ ℓ) / 2 ^ e % 2 := by
    have hi : i = (i - 2 ^ ℓ) + 2 ^ (ℓ - e - 1) * 2 * 2 ^ e := by
      rw [← hpow]
      omega
    have hpos : 0 < (2 : Nat) ^ e := Nat.pos_pow_of_pos e (by omega)
    calc i / 2 ^ e % 2
        = ((i - 2 ^ ℓ) + 2 ^ (ℓ - e - 1) * 2 * 2 ^ e) / 2 ^ e % 2 := by rw [← hi]
      _ = ((i - 2 ^ ℓ) / 2 ^ e + 2 ^ (ℓ - e - 1) * 2) % 2 := by
          rw [Nat.add_mul_div_right _ _ hpos]
      _ = (i - 2 ^ ℓ) / 2 ^ e % 2 := by
          rw [Nat.add_mul_mod_self_right]
  rw [hdiv]

/-- Claim C8: for every coordinate vector `r` of length ℓ and every index
`i < 2^ℓ`, the iterative-doubling table entry `evals()[i]` equals `evaluate`
at the boolean hypercube point of index `i` (most significant bit matched
against `r[0]`). -/
theorem eq_polynomial_consistency (r : List F) (i : Nat)
    (hi : i < 2 ^ r.length) :
    (EqPolynomial.evals (⟨r⟩ : EqPolynomial F)).getD i 0
      = EqPolynomial.evaluate (⟨r⟩ : EqPolynomial F)
          (index_to_bits r.length i) := by
  induction r generalizing i with
  | nil =>
    have h0 : i = 0 := by
      simp only [List.length_nil, pow_zero] at hi
      omega
    subst h0
    simp [EqPolynomial.evals, EqPolynomial.evaluate, index_to_bits]
  | cons r0 rs ih =>
    have hlen : (EqPolynomial.evals (⟨rs⟩ : EqPolynomial F)).length
        = 2 ^ rs.length := evals_length rs
    have hℓ : (r0 :: rs).length = rs.length + 1 := rfl
    rw [hℓ] at hi
    rw [hℓ, index_to_bits_succ, evals_cons]
    by_cases hsplit : i < 2 ^ rs.length
    · have hbit : i / 2 ^ rs.length % 2 = 0 := by
        rw [Nat.div_eq_of_lt hsplit]
      rw [if_neg (by omega)]
      rw [List.getD_append _ _ _ _ (by rw [List.length_map, hlen]; exact hsplit)]
      rw [getD_map_lt _ _ _ (by rw [hlen]; exact hsplit)]
      rw [ih i hsplit, eq_evaluate_cons]
      ring
    · have hge : 2 ^ rs.length ≤ i := by omega
      have hi2 : i - 2 ^ rs.length < 2 ^ rs.length := by
        rw [pow_succ] at hi
        omega
      have hdiv1 : i / 2 ^ rs.length = 1 := by
        have hrw : i = (i - 2 ^ rs.length) + 2 ^ rs.length := by omega
        have hpos : 0 < (2 : Nat) ^ rs.length :=
          Nat.pos_pow_of_pos rs.length (by omega)
        rw [hrw, Nat.add_div_right _ hpos, Nat.div_eq_of_lt hi2]
      rw [if_pos (by rw [hdiv1])]
      rw [List.getD_append_right _ _ _ _
        (by rw [List.length_map, hlen]; exact hge)]
      rw [List.length_map, hlen]
      rw [getD_map_lt _ _ _ (by rw [hlen]; exact hi2)]
      rw [ih (i - 2 ^ rs.length) hi2, eq_evaluate_cons,
        index_to_bits_sub_pow rs.length i hge]
      ring

/-- Claim C8 witness: the table/pointwise agreement evaluated at
`r = [2, 3]` and index `i = 2` over the integers. -/
theorem eq_polynomial_consistency_witness :
    (EqPolynomial.evals (⟨[2, 3]⟩ : EqPolynomial Int)).getD 2 0
      = EqPolynomial.evaluate (⟨[2, 3]⟩ : EqPolynomial Int)
          (index_to_bits (List.length [(2 : Int), 3]) 2) :=
  eq_polynomial_consistency [2, 3] 2 (by decide)

theorem bind_sum (r0 : F) :
    ∀ (E A B : List F), E.length = A.length → A.length = B.length →
      (List.zipWith (fun a b => a * b) E
          (List.zipWith (fun a b => a + r0 * (b - a)) A B)).sum
        = (List.zipWith (fun a b => a * b)
              (E.map (fun x => x - x * r0)) A).sum
          + (List.zipWith (fun a b => a * b)
              (E.map (fun x => x * r0)) B).sum := by
  intro E
  induction E with
  | nil =>
    intro A B hEA hAB
    have hA : A = [] := by
      cases A with
      | nil => rfl
      | cons a as => simp at hEA
    subst hA
    have hB : B = [] := by
      cases B with
      | nil => rfl
      | cons b bs => simp at hAB
    subst hB
    simp
  | cons e E ih =>
    intro A B hEA hAB
    cases A with
    | nil => simp at hEA
    | cons a as =>
      cases B with
      | nil => simp at hAB
      | cons b bs =>
        simp only [List.zipWith_cons_cons, List.map_cons, List.sum_cons]
        rw [ih as bs (by simpa using hEA) (by simpa using hAB)]
        ring

/-- Claim C7: binding/evaluation agreement.  For a `MultilinearPolynomial`
with `k` variables and an evaluation vector of length `2^k`, applying
`bound_poly_var_top` successively with challenges `r_1, …, r_k` leaves a
single entry equal to `evaluate [r_1, …, r_k]` on the original polynomial. -/
theorem binding_evaluation_agreement (p : MultilinearPolynomial F)
    (rs : List F) (hZ : p.Z.length = 2 ^ p.num_vars)
    (hr : rs.length = p.num_vars) :
    (rs.foldl (fun q r => q.bound_poly_var_top r) p).Z = [p.evaluate rs] := by
  induction rs generalizing p with
  | nil =>
    have h1 : p.Z.length = 1 := by
      rw [hZ, ← hr]
      rfl
    obtain ⟨z, hz⟩ : ∃ z, p.Z = [z] := by
      cases hzc : p.Z with
      | nil => rw [hzc] at h1; simp at h1
      | cons a t =>
        cases htc : t with
        | nil => exact ⟨a, by simp [hzc, htc]⟩
        | cons b t2 => rw [hzc, htc] at h1; simp at h1
    rw [List.foldl_nil, hz, MultilinearPolynomial.evaluate, hz]
    simp [EqPolynomial.evals]
  | cons r0 rs' ih =>
    have hk : p.num_vars = rs'.length + 1 := by
      rw [← hr]
      rfl
    have hZ2 : p.Z.length = 2 * 2 ^ rs'.length := by
      rw [hZ, hk, pow_succ]
      ring
    have hhalf : p.Z.length / 2 = 2 ^ rs'.length := by omega
    have hbz : (p.bound_poly_var_top r0).Z
        = List.zipWith (fun a b => a + r0 * (b - a))
            (p.Z.take (2 ^ rs'.length))
            ((p.Z.drop (2 ^ rs'.length)).take (2 ^ rs'.length)) := by
      rw [MultilinearPolynomial.bound_poly_var_top, hhalf]
    have hbn : (p.bound_poly_var_top r0).num_vars = rs'.length := by
      simp [MultilinearPolynomial.bound_poly_var_top, hk]
    have htake : (p.Z.take (2 ^ rs'.length)).length = 2 ^ rs'.length := by
      rw [List.length_take]
      omega
    have hdroplen : (p.Z.drop (2 ^ rs'.length)).length = 2 ^ rs'.length := by
      rw [List.length_drop]
      omega
    have hdt : (p.Z.drop (2 ^ rs'.length)).take (2 ^ rs'.length)
        = p.Z.drop (2 ^ rs'.length) :=
      List.take_of_length_le (by rw [hdroplen])
    have hZ' : (p.bound_poly_var_top r0).Z.length
        = 2 ^ (p.bound_poly_var_top r0).num_vars := by
      rw [hbz, hbn, List.length_zipWith, htake, hdt, hdroplen, min_self]
    have hr' : rs'.length = (p.bound_poly_var_top r0).num_vars := hbn.symm
    simp only [List.foldl_cons]
    rw [ih (p.bound_poly_var_top r0) hZ' hr']
    congr 1
    rw [MultilinearPolynomial.evaluate, MultilinearPolynomial.evaluate, hbz,
      evals_cons]
    conv_rhs => rw [← List.take_append_drop (2 ^ rs'.length) p.Z]
    rw [List.zipWith_append _ _ _ _ _
      (by rw [List.length_map, evals_length, htake])]
    rw [List.sum_append]
    rw [hdt]
    rw [bind_sum r0 (EqPolynomial.evals (⟨rs'⟩ : EqPolynomial F))
      (p.Z.take (2 ^ rs'.length)) (p.Z.drop (2 ^ rs'.length))
      (by rw [evals_length, htake]) (by rw [htake, hdroplen])]

/-- Claim C7 witness: one binding round on the concrete polynomial with
evaluations `[3, 5]` and challenge `2` leaves exactly `evaluate [2] = 7`. -/
theorem binding_evaluation_agreement_witness :
    ([2].foldl (fun q r => q.bound_poly_var_top r)
        (⟨1, [3, 5]⟩ : MultilinearPolynomial Int)).Z
      = [(⟨1, [3, 5]⟩ : MultilinearPolynomial Int).evaluate [2]] :=
  binding_evaluation_agreement (⟨1, [3, 5]⟩ : MultilinearPolynomial Int)
    [2] rfl rfl

end Spartan2
